import Mathlib

/-
Verification of the bespoke string utilities of the NLP_IEEE notebook
(`task2.ipynb`): the Egyptian-Arabic dialect normalizer `convert_to_msa`
(built on Python `str.replace`), the abbreviation-expansion loop (built on
`re.sub` with word-boundary anchors), and the character-set cleaner
`preprocess_for_sentiment` (built on `re.sub` over a negated character
class).  Texts are modelled as `List Char`; the Python string and regex
operations the notebook relies on are embedded as executable functions
below, and the notebook's functions are defined on top of them exactly as
in the source.
-/

/-- The apostrophe character (U+0027), used to spell sample strings that
contain it. -/
def apos : Char := Char.ofNat 39

/-- Scanner of Python `str.replace(old, new)` for a non-empty `old`:
left-to-right over the original text, replacing non-overlapping occurrences
and continuing after each replaced occurrence.  The `skip` counter (first
explicit argument) counts how many characters of an already-replaced
occurrence remain to be consumed. -/
def raux (old new : List Char) : Nat → List Char → List Char
  | _, [] => []
  | Nat.succ n, _ :: rest => raux old new n rest
  | 0, c :: rest =>
    if old <+: (c :: rest) then new ++ raux old new (old.length - 1) rest
    else c :: raux old new 0 rest

/-- Python `str.replace("", new)`: with an empty pattern the replacement is
inserted before every character and once more at the end, so
`"ab".replace("", "X")` is `"XaXbX"`. -/
def gapInsert (new : List Char) : List Char → List Char
  | [] => new
  | c :: rest => new ++ c :: gapInsert new rest

/-- Python `str.replace(old, new)` on character lists: global, plain
substring replacement with no word-boundary checking. -/
def replaceAll (old new s : List Char) : List Char :=
  if old = [] then gapInsert new s else raux old new 0 s

/-- The body of `convert_to_msa` in `task2.ipynb`: the mapping is applied
entry by entry, in its defined order, each entry performing one global
`text.replace(key, value)` on the current, possibly already-rewritten
text. -/
def applyMapping (mapping : List (List Char × List Char)) (text : List Char) : List Char :=
  mapping.foldl (fun t p => replaceAll p.1 p.2 t) text

/-- The fixed `dialect_mapping` dictionary of `task2.ipynb` (Egyptian
Arabic to Modern Standard Arabic), in its defined insertion order. -/
def dialect_mapping : List (List Char × List Char) :=
  [("عايز".data, "أريد".data),
   ("فين".data, "أين".data),
   ("هاروح".data, "سأذهب".data),
   ("كده".data, "بهذه الطريقة".data),
   ("حاجة".data, "شيء".data)]

/-- `convert_to_msa` from `task2.ipynb`: folds `text.replace(k, v)` over
the entries of `dialect_mapping` in order. -/
def convert_to_msa (text : List Char) : List Char :=
  applyMapping dialect_mapping text

/-- Word characters for the `\b` assertion of Python `re`: ASCII letters,
digits and the underscore, plus the Arabic letter and digit blocks, which
cover every code point occurring in this repository's sample strings. -/
def isWordChar (c : Char) : Bool :=
  c.isAlphanum || c == '_' || (0x621 ≤ c.toNat && c.toNat ≤ 0x64A)
    || (0x660 ≤ c.toNat && c.toNat ≤ 0x669)

/-- Wordness of an optional character; the virtual positions before the
first and after the last character of the text count as non-word. -/
def wordOpt : Option Char → Bool
  | none => false
  | some c => isWordChar c

/-- A `\b` word boundary holds between two (possibly virtual) adjacent
characters exactly when one of them is a word character and the other is
not. -/
def boundaryB (a b : Option Char) : Bool :=
  wordOpt a != wordOpt b

/-- Scanner of `re.sub(r'\b' + pat + r'\b', rep, text)` for a non-empty
literal `pat`: an occurrence is replaced only when the literal matches and
both of its ends lie on word boundaries of the original text.  `prev` is
the character just before the current position, `skip` counts remaining
characters of an already-replaced occurrence. -/
def swAux (pat rep : List Char) : Nat → Option Char → List Char → List Char
  | _, _, [] => []
  | Nat.succ n, _, c :: rest => swAux pat rep n (some c) rest
  | 0, prev, c :: rest =>
    if pat.isPrefixOf (c :: rest) && boundaryB prev (some c)
        && boundaryB pat.getLast? (((c :: rest).drop pat.length).head?)
    then rep ++ swAux pat rep (pat.length - 1) (some c) rest
    else c :: swAux pat rep 0 (some c) rest

/-- `re.sub(r'\b\b', rep, text)` for an empty literal: the pattern matches
the empty string at every word-boundary position, where `rep` is
inserted. -/
def swEmpty (rep : List Char) : Option Char → List Char → List Char
  | prev, [] => if boundaryB prev none then rep else []
  | prev, c :: rest =>
    (if boundaryB prev (some c) then rep else []) ++ c :: swEmpty rep (some c) rest

/-- One step of the abbreviation-expansion loop of `task2.ipynb`:
`re.sub(r'\b' + pat + r'\b', rep, text)` with a literal pattern. -/
def reSubWholeWord (pat rep text : List Char) : List Char :=
  if pat = [] then swEmpty rep none text else swAux pat rep 0 none text

/-- The abbreviation-expansion loop of `task2.ipynb`: one whole-word
`re.sub` pass per mapping entry, in the mapping's defined order, each pass
operating on the current (possibly already-rewritten) text. -/
def expand_whole_word (mapping : List (List Char × List Char)) (text : List Char) : List Char :=
  mapping.foldl (fun t p => reSubWholeWord p.1 p.2 t) text

/-- The `abbreviations` dictionary of `task2.ipynb`, in defined order. -/
def abbreviations : List (List Char × List Char) :=
  [("ASAP".data, "as soon as possible".data),
   (['I', apos, 'm'], "I am".data)]

/-- The character class `[A-Za-z0-9أ-ي ]` of `preprocess_for_sentiment`:
Latin letters, ASCII decimal digits, the contiguous Arabic code-point
range from أ (U+0623) to ي (U+064A), and the space character. -/
def allowedChar (c : Char) : Bool :=
  (decide ('A' ≤ c) && decide (c ≤ 'Z')) || (decide ('a' ≤ c) && decide (c ≤ 'z'))
    || (decide ('0' ≤ c) && decide (c ≤ '9')) || (decide ('أ' ≤ c) && decide (c ≤ 'ي'))
    || c == ' '

/-- `preprocess_for_sentiment` from `task2.ipynb`:
`re.sub(r'[^A-Za-z0-9أ-ي ]+', '', text)` deletes every maximal run of
characters outside the allowed class. -/
def preprocess_for_sentiment (text : List Char) : List Char :=
  match text with
  | [] => []
  | c :: rest =>
    if allowedChar c then c :: preprocess_for_sentiment rest
    else preprocess_for_sentiment (rest.dropWhile (fun d => !allowedChar d))
termination_by text.length
decreasing_by
  · simp
  · simp only [List.length_cons]
    exact Nat.lt_succ_of_le (List.Sublist.length_le (List.dropWhile_sublist _))

/-- C1: the dialect normalizer rewrites by iterating over the mapping in
its defined order, doing a plain global substring replacement each time;
on the sample sentence every occurrence of عايز and فين is replaced and
all other characters, including the trailing question mark, are kept in
order; with no word-boundary check, a key embedded in a longer word is
also replaced. -/
theorem convert_to_msa_example :
    applyMapping [("عايز".data, "أريد".data), ("فين".data, "أين".data)]
        "أنا عايز أروح فين؟".data = "أنا أريد أروح أين؟".data
      ∧ convert_to_msa "أنا عايز أروح فين؟".data = "أنا أريد أروح أين؟".data
      ∧ convert_to_msa "عايزة".data = "أريدة".data := by
  refine ⟨?_, ?_, ?_⟩ <;> decide

/-- C2: the abbreviation expander replaces a key only as a whole word
(`ASAP` inside `ASAPX` does not match), with exact case-sensitive literal
matching (`asap` is untouched), while a properly bounded occurrence is
replaced. -/
theorem expand_whole_word_boundary :
    expand_whole_word [("ASAP".data, "as soon as possible".data)] "ASAPX".data = "ASAPX".data
      ∧ expand_whole_word [("ASAP".data, "as soon as possible".data)] "asap".data = "asap".data
      ∧ expand_whole_word [("ASAP".data, "as soon as possible".data)] "do it ASAP".data
          = "do it as soon as possible".data := by
  refine ⟨?_, ?_, ?_⟩ <;> decide

/-- C3: on the notebook's sample sentence, applying the `abbreviations`
mapping in its defined order (ASAP first, then the contraction of
"I am"), each key as an independent global whole-word pass, produces
exactly "I am going to the gym as soon as possible". -/
theorem expand_whole_word_example :
    expand_whole_word abbreviations (['I', apos] ++ "m going to the gym ASAP".data)
      = "I am going to the gym as soon as possible".data := by
  decide

/-- C7: with an empty mapping, both the dialect normalizer and the
abbreviation expander return the text unchanged. -/
theorem empty_mapping_identity (t : List Char) :
    applyMapping [] t = t ∧ expand_whole_word [] t = t :=
  ⟨rfl, rfl⟩

/-- In skip mode the scanner simply drops the remaining matched
characters: skipping `n` equals restarting after dropping `n`. -/
theorem raux_skip (old new : List Char) (s : List Char) :
    ∀ n : Nat, raux old new n s = raux old new 0 (s.drop n) := by
  induction s with
  | nil => intro n; cases n <;> rfl
  | cons c rest ih =>
    intro n
    cases n with
    | zero => rfl
    | succ m =>
      rw [show raux old new (Nat.succ m) (c :: rest) = raux old new m rest from rfl, ih m]
      rfl

/-- Unfolding `raux` at a match position: the replacement is emitted and
scanning continues after the matched occurrence. -/
theorem raux_match (old new s : List Char) (h : old <+: s) (h0 : old ≠ []) :
    raux old new 0 s = new ++ raux old new 0 (s.drop old.length) := by
  cases s with
  | nil =>
    exact absurd (List.prefix_nil.mp h) h0
  | cons c rest =>
    obtain ⟨m, hm⟩ : ∃ m, old.length = m + 1 := by
      refine ⟨old.length - 1, ?_⟩
      have : 0 < old.length := List.length_pos.mpr h0
      omega
    rw [show raux old new 0 (c :: rest)
          = if old <+: (c :: rest) then new ++ raux old new (old.length - 1) rest
            else c :: raux old new 0 rest from rfl,
      if_pos h, raux_skip, hm]
    rfl

/-- Unfolding `raux` at a non-match position: the character is kept and
scanning advances by one. -/
theorem raux_nomatch (old new : List Char) (c : Char) (rest : List Char)
    (h : ¬ old <+: (c :: rest)) :
    raux old new 0 (c :: rest) = c :: raux old new 0 rest := by
  rw [show raux old new 0 (c :: rest)
        = if old <+: (c :: rest) then new ++ raux old new (old.length - 1) rest
          else c :: raux old new 0 rest from rfl,
    if_neg h]

/-- An occurrence inside a concatenation lies in the left part, in the
right part, or spans the junction as a suffix of the left part followed by
a prefix of the right part. -/
theorem infix_append_cases {α : Type _} {k x y : List α} (h : k <:+: x ++ y) :
    k <:+: x ∨ k <:+: y
      ∨ ∃ p q, p ++ q = k ∧ p ≠ [] ∧ q ≠ [] ∧ p <:+ x ∧ q <+: y := by
  obtain ⟨s, t, hst⟩ := h
  rw [List.append_assoc] at hst
  rcases List.append_eq_append_iff.mp hst with ⟨a, hx, hkt⟩ | ⟨c, _, hy⟩
  · rcases List.append_eq_append_iff.mp hkt with ⟨b, ha, _⟩ | ⟨b, hk, hy2⟩
    · left
      exact ⟨s, b, by rw [hx, ha, List.append_assoc]⟩
    · by_cases hb : b = []
      · subst hb
        rw [List.append_nil] at hk
        subst hk
        left
        exact List.IsSuffix.isInfix ⟨s, hx.symm⟩
      · by_cases ha0 : a = []
        · subst ha0
          rw [List.nil_append] at hk
          subst hk
          right; left
          exact List.IsPrefix.isInfix ⟨t, hy2.symm⟩
        · right; right
          exact ⟨a, b, hk.symm, ha0, hb, ⟨s, hx.symm⟩, ⟨t, hy2.symm⟩⟩
  · right; left
    exact ⟨c, t, by rw [hy, List.append_assoc]⟩

/-- A prefix of a concatenation is a prefix of the left part or extends it
into the right part. -/
theorem prefix_append_cases {α : Type _} {q v r : List α} (h : q <+: v ++ r) :
    q <+: v ∨ ∃ q2, q = v ++ q2 ∧ q2 <+: r := by
  obtain ⟨t, ht⟩ := h
  rcases List.append_eq_append_iff.mp ht with ⟨a, hv, _⟩ | ⟨c, hq, hr⟩
  · left
    exact ⟨a, hv.symm⟩
  · right
    exact ⟨c, hq, ⟨t, hr.symm⟩⟩

/-- No-creation lemma for prefixes: a non-empty suffix `q` of a key `k`
that is a prefix of the output of one `str.replace(kp, vp)` pass was
already a prefix of the input, provided `k` does not occur in `vp`, no
non-empty proper suffix of `k` starts `vp`, and `vp` is not a proper
infix of `k`. -/
theorem suffix_prefix_of_raux (k kp vp : List Char) (hkp : kp ≠ [])
    (h1 : ¬ k <:+: vp)
    (h3 : ∀ n, n < k.length → 0 < n → ¬ (k.drop n <+: vp))
    (h4 : ¬ (vp <:+: k ∧ vp.length < k.length)) :
    ∀ (N : Nat) (s q : List Char), s.length ≤ N → q ≠ [] → q <:+ k →
      q <+: raux kp vp 0 s → q <+: s := by
  intro N
  induction N with
  | zero =>
    intro s q hs hq _ hpre
    have hnil : s = [] := List.length_eq_zero.mp (Nat.le_zero.mp hs)
    subst hnil
    exact absurd (List.prefix_nil.mp hpre) hq
  | succ N ih =>
    intro s q hs hq hqk hpre
    cases s with
    | nil => exact absurd (List.prefix_nil.mp hpre) hq
    | cons c rest =>
      by_cases hp : kp <+: (c :: rest)
      · rw [raux_match kp vp (c :: rest) hp hkp] at hpre
        exfalso
        rcases prefix_append_cases hpre with hqv | ⟨q2, hq2, _⟩
        · by_cases hqk' : q = k
          · subst hqk'
            exact h1 (List.IsPrefix.isInfix hqv)
          · obtain ⟨a, ha⟩ := hqk
            have hq_eq : k.drop a.length = q := by
              rw [← ha]; exact List.drop_left a q
            have hlen : k.length = a.length + q.length := by
              rw [← ha, List.length_append]
            have h0a : 0 < a.length := by
              rcases Nat.eq_zero_or_pos a.length with h0 | h0
              · exfalso
                apply hqk'
                have : a = [] := List.length_eq_zero.mp h0
                rw [← ha, this, List.nil_append]
              · exact h0
            have h0q : 0 < q.length := List.length_pos.mpr hq
            refine h3 a.length (by omega) h0a ?_
            rw [hq_eq]; exact hqv
        · have hvq : vp <+: q := ⟨q2, hq2.symm⟩
          have hvk : vp <:+: k :=
            List.IsInfix.trans (List.IsPrefix.isInfix hvq) (List.IsSuffix.isInfix hqk)
          have hvlen : vp.length ≤ q.length := List.IsPrefix.length_le hvq
          have hqlen : q.length ≤ k.length := List.IsSuffix.length_le hqk
          rcases Nat.lt_or_ge vp.length k.length with hlt | hge
          · exact h4 ⟨hvk, hlt⟩
          · have hqk2 : q = k := List.IsSuffix.eq_of_length hqk (by omega)
            have hvq2 : vp = q := List.IsPrefix.eq_of_length hvq (by omega)
            exact h1 (by rw [hvq2, hqk2])
      · rw [raux_nomatch kp vp c rest hp] at hpre
        cases q with
        | nil => exact absurd rfl hq
        | cons q0 q1 =>
          obtain ⟨hq0, hq1⟩ := List.cons_prefix_cons.mp hpre
          subst hq0
          by_cases hq10 : q1 = []
          · subst hq10
            exact List.cons_prefix_cons.mpr ⟨rfl, List.nil_prefix⟩
          · have hq1k : q1 <:+ k :=
              List.IsSuffix.trans ⟨[q0], rfl⟩ hqk
            have hrest : rest.length ≤ N := by
              have := hs; simp only [List.length_cons] at this; omega
            have := ih rest q1 hrest hq10 hq1k hq1
            exact List.cons_prefix_cons.mpr ⟨rfl, this⟩

/-- Freeness of a key in the output of its own `str.replace(k, v)` pass:
the output never contains `k`, provided `k` does not occur in `v`, no
non-empty proper prefix of `k` ends `v`, no non-empty proper suffix of
`k` starts `v`, and `v` is not a proper infix of `k`. -/
theorem not_infix_raux_self (k v : List Char) (hk : k ≠ [])
    (h1 : ¬ k <:+: v)
    (h2 : ∀ n, n < k.length → 0 < n → ¬ (k.take n <:+ v))
    (h3 : ∀ n, n < k.length → 0 < n → ¬ (k.drop n <+: v))
    (h4 : ¬ (v <:+: k ∧ v.length < k.length)) :
    ∀ (N : Nat) (s : List Char), s.length ≤ N → ¬ k <:+: raux k v 0 s := by
  intro N
  induction N with
  | zero =>
    intro s hs hinf
    have hnil : s = [] := List.length_eq_zero.mp (Nat.le_zero.mp hs)
    subst hnil
    exact hk (List.infix_nil.mp hinf)
  | succ N ih =>
    intro s hs hinf
    cases s with
    | nil => exact hk (List.infix_nil.mp hinf)
    | cons c rest =>
      have hk1 : 0 < k.length := List.length_pos.mpr hk
      have hrest : rest.length ≤ N := by
        have := hs; simp only [List.length_cons] at this; omega
      by_cases hp : k <+: (c :: rest)
      · rw [raux_match k v (c :: rest) hp hk] at hinf
        rcases infix_append_cases hinf with h | h | ⟨p, q, hpq, hp0, hq0, hpv, _⟩
        · exact h1 h
        · refine ih ((c :: rest).drop k.length) ?_ h
          have : ((c :: rest).drop k.length).length = (c :: rest).length - k.length := by
            simp [List.length_drop]
          simp only [List.length_cons] at this ⊢
          omega
        · have hpk : k.take p.length = p := by
            rw [← hpq]; exact List.take_left p q
          have hlen : k.length = p.length + q.length := by
            rw [← hpq, List.length_append]
          have h0p : 0 < p.length := List.length_pos.mpr hp0
          have h0q : 0 < q.length := List.length_pos.mpr hq0
          refine h2 p.length (by omega) h0p ?_
          rw [hpk]; exact hpv
      · rw [raux_nomatch k v c rest hp] at hinf
        rcases List.infix_cons_iff.mp hinf with hpre | hinf2
        · cases k with
          | nil => exact hk rfl
          | cons k0 kt =>
            obtain ⟨hk0, hkt⟩ := List.cons_prefix_cons.mp hpre
            subst hk0
            by_cases hkt0 : kt = []
            · subst hkt0
              exact hp (List.cons_prefix_cons.mpr ⟨rfl, List.nil_prefix⟩)
            · have hktk : kt <:+ (k0 :: kt) := ⟨[k0], rfl⟩
              have := suffix_prefix_of_raux (k0 :: kt) (k0 :: kt) v hk h1 h3 h4
                N rest kt hrest hkt0 hktk hkt
              exact hp (List.cons_prefix_cons.mpr ⟨rfl, this⟩)
        · exact ih rest hrest hinf2

/-- Preservation of key-freeness through someone else's
`str.replace(kp, vp)` pass, under the matching no-creation side
conditions on the pair `(k, vp)`. -/
theorem not_infix_raux_of_not_infix (k kp vp : List Char) (hk : k ≠ []) (hkp : kp ≠ [])
    (h1 : ¬ k <:+: vp)
    (h2 : ∀ n, n < k.length → 0 < n → ¬ (k.take n <:+ vp))
    (h3 : ∀ n, n < k.length → 0 < n → ¬ (k.drop n <+: vp))
    (h4 : ¬ (vp <:+: k ∧ vp.length < k.length)) :
    ∀ (N : Nat) (s : List Char), s.length ≤ N → ¬ k <:+: s → ¬ k <:+: raux kp vp 0 s := by
  intro N
  induction N with
  | zero =>
    intro s hs _ hinf
    have hnil : s = [] := List.length_eq_zero.mp (Nat.le_zero.mp hs)
    subst hnil
    exact hk (List.infix_nil.mp hinf)
  | succ N ih =>
    intro s hs hfree hinf
    cases s with
    | nil => exact hk (List.infix_nil.mp hinf)
    | cons c rest =>
      have hkp1 : 0 < kp.length := List.length_pos.mpr hkp
      have hrest : rest.length ≤ N := by
        have := hs; simp only [List.length_cons] at this; omega
      have hfree_rest : ¬ k <:+: rest := fun h =>
        hfree (List.infix_cons_iff.mpr (Or.inr h))
      by_cases hp : kp <+: (c :: rest)
      · rw [raux_match kp vp (c :: rest) hp hkp] at hinf
        rcases infix_append_cases hinf with h | h | ⟨p, q, hpq, hp0, hq0, hpv, _⟩
        · exact h1 h
        · have hfree_drop : ¬ k <:+: (c :: rest).drop kp.length := fun hx =>
            hfree (List.IsInfix.trans hx (List.IsSuffix.isInfix (List.drop_suffix _ _)))
          refine ih ((c :: rest).drop kp.length) ?_ hfree_drop h
          have : ((c :: rest).drop kp.length).length = (c :: rest).length - kp.length := by
            simp [List.length_drop]
          simp only [List.length_cons] at this ⊢
          omega
        · have hpk : k.take p.length = p := by
            rw [← hpq]; exact List.take_left p q
          have hlen : k.length = p.length + q.length := by
            rw [← hpq, List.length_append]
          have h0p : 0 < p.length := List.length_pos.mpr hp0
          have h0q : 0 < q.length := List.length_pos.mpr hq0
          refine h2 p.length (by omega) h0p ?_
          rw [hpk]; exact hpv
      · rw [raux_nomatch kp vp c rest hp] at hinf
        rcases List.infix_cons_iff.mp hinf with hpre | hinf2
        · cases k with
          | nil => exact hk rfl
          | cons k0 kt =>
            obtain ⟨hk0, hkt⟩ := List.cons_prefix_cons.mp hpre
            subst hk0
            by_cases hkt0 : kt = []
            · subst hkt0
              exact hfree (List.IsPrefix.isInfix
                (List.cons_prefix_cons.mpr ⟨rfl, List.nil_prefix⟩))
            · have hktk : kt <:+ (k0 :: kt) := ⟨[k0], rfl⟩
              have := suffix_prefix_of_raux (k0 :: kt) kp vp hkp h1 h3 h4
                N rest kt hrest hkt0 hktk hkt
              exact hfree (List.IsPrefix.isInfix
                (List.cons_prefix_cons.mpr ⟨rfl, this⟩))
        · exact ih rest hrest hfree_rest hinf2

/-- A `str.replace(k, v)` pass on a text that does not contain `k` is the
identity. -/
theorem raux_id (k v : List Char) :
    ∀ s : List Char, ¬ k <:+: s → raux k v 0 s = s := by
  intro s
  induction s with
  | nil => intro _; rfl
  | cons c rest ih =>
    intro hfree
    by_cases hp : k <+: (c :: rest)
    · exact absurd (List.IsPrefix.isInfix hp) hfree
    · rw [raux_nomatch k v c rest hp,
        ih (fun h => hfree (List.infix_cons_iff.mpr (Or.inr h)))]

/-- For a non-empty pattern, `replaceAll` is the scanner `raux`. -/
theorem replaceAll_eq_raux (old new s : List Char) (h : old ≠ []) :
    replaceAll old new s = raux old new 0 s := by
  unfold replaceAll
  rw [if_neg h]

/-- `replaceAll` never leaves an occurrence of its own key, under the
no-creation side conditions. -/
theorem not_infix_replaceAll_self (k v : List Char) (hk : k ≠ [])
    (h1 : ¬ k <:+: v)
    (h2 : ∀ n, n < k.length → 0 < n → ¬ (k.take n <:+ v))
    (h3 : ∀ n, n < k.length → 0 < n → ¬ (k.drop n <+: v))
    (h4 : ¬ (v <:+: k ∧ v.length < k.length))
    (s : List Char) : ¬ k <:+: replaceAll k v s := by
  rw [replaceAll_eq_raux k v s hk]
  exact not_infix_raux_self k v hk h1 h2 h3 h4 s.length s le_rfl

/-- `replaceAll` with another key preserves freeness of `k`, under the
no-creation side conditions. -/
theorem not_infix_replaceAll (k kp vp : List Char) (hk : k ≠ []) (hkp : kp ≠ [])
    (h1 : ¬ k <:+: vp)
    (h2 : ∀ n, n < k.length → 0 < n → ¬ (k.take n <:+ vp))
    (h3 : ∀ n, n < k.length → 0 < n → ¬ (k.drop n <+: vp))
    (h4 : ¬ (vp <:+: k ∧ vp.length < k.length))
    (s : List Char) (hfree : ¬ k <:+: s) : ¬ k <:+: replaceAll kp vp s := by
  rw [replaceAll_eq_raux kp vp s hkp]
  exact not_infix_raux_of_not_infix k kp vp hk hkp h1 h2 h3 h4 s.length s le_rfl hfree

/-- `replaceAll` on a text free of its key is the identity. -/
theorem replaceAll_of_not_infix (k v s : List Char) (hk : k ≠ [])
    (hfree : ¬ k <:+: s) : replaceAll k v s = s := by
  rw [replaceAll_eq_raux k v s hk]
  exact raux_id k v s hfree

/-- `convert_to_msa` unfolded into its five sequential `str.replace`
passes, in the order of `dialect_mapping`. -/
theorem convert_to_msa_unfold (t : List Char) :
    convert_to_msa t =
      replaceAll "حاجة".data "شيء".data
        (replaceAll "كده".data "بهذه الطريقة".data
          (replaceAll "هاروح".data "سأذهب".data
            (replaceAll "فين".data "أين".data
              (replaceAll "عايز".data "أريد".data t)))) := rfl

/-- The output of `convert_to_msa` never contains the key عايز: the first
pass removes it and no later pass can recreate it. -/
theorem convert_free_1 (t : List Char) : ¬ "عايز".data <:+: convert_to_msa t := by
  rw [convert_to_msa_unfold]
  refine not_infix_replaceAll _ _ _ (by decide) (by decide) (by decide)
    (by decide) (by decide) (by decide) _ ?_
  refine not_infix_replaceAll _ _ _ (by decide) (by decide) (by decide)
    (by decide) (by decide) (by decide) _ ?_
  refine not_infix_replaceAll _ _ _ (by decide) (by decide) (by decide)
    (by decide) (by decide) (by decide) _ ?_
  refine not_infix_replaceAll _ _ _ (by decide) (by decide) (by decide)
    (by decide) (by decide) (by decide) _ ?_
  exact not_infix_replaceAll_self _ _ (by decide) (by decide) (by decide)
    (by decide) (by decide) _

/-- The output of `convert_to_msa` never contains the key فين. -/
theorem convert_free_2 (t : List Char) : ¬ "فين".data <:+: convert_to_msa t := by
  rw [convert_to_msa_unfold]
  refine not_infix_replaceAll _ _ _ (by decide) (by decide) (by decide)
    (by decide) (by decide) (by decide) _ ?_
  refine not_infix_replaceAll _ _ _ (by decide) (by decide) (by decide)
    (by decide) (by decide) (by decide) _ ?_
  refine not_infix_replaceAll _ _ _ (by decide) (by decide) (by decide)
    (by decide) (by decide) (by decide) _ ?_
  exact not_infix_replaceAll_self _ _ (by decide) (by decide) (by decide)
    (by decide) (by decide) _

/-- The output of `convert_to_msa` never contains the key هاروح. -/
theorem convert_free_3 (t : List Char) : ¬ "هاروح".data <:+: convert_to_msa t := by
  rw [convert_to_msa_unfold]
  refine not_infix_replaceAll _ _ _ (by decide) (by decide) (by decide)
    (by decide) (by decide) (by decide) _ ?_
  refine not_infix_replaceAll _ _ _ (by decide) (by decide) (by decide)
    (by decide) (by decide) (by decide) _ ?_
  exact not_infix_replaceAll_self _ _ (by decide) (by decide) (by decide)
    (by decide) (by decide) _

/-- The output of `convert_to_msa` never contains the key كده. -/
theorem convert_free_4 (t : List Char) : ¬ "كده".data <:+: convert_to_msa t := by
  rw [convert_to_msa_unfold]
  refine not_infix_replaceAll _ _ _ (by decide) (by decide) (by decide)
    (by decide) (by decide) (by decide) _ ?_
  exact not_infix_replaceAll_self _ _ (by decide) (by decide) (by decide)
    (by decide) (by decide) _

/-- The output of `convert_to_msa` never contains the key حاجة. -/
theorem convert_free_5 (t : List Char) : ¬ "حاجة".data <:+: convert_to_msa t := by
  rw [convert_to_msa_unfold]
  exact not_infix_replaceAll_self _ _ (by decide) (by decide) (by decide)
    (by decide) (by decide) _

/-- C10: with the fixed `dialect_mapping` of the source, `convert_to_msa`
is idempotent: a second application changes nothing, because no key of
the mapping can occur in (or be recreated in) the output of the first
application. -/
theorem convert_to_msa_idempotent (t : List Char) :
    convert_to_msa (convert_to_msa t) = convert_to_msa t := by
  have h1 := convert_free_1 t
  have h2 := convert_free_2 t
  have h3 := convert_free_3 t
  have h4 := convert_free_4 t
  have h5 := convert_free_5 t
  rw [convert_to_msa_unfold (convert_to_msa t),
    replaceAll_of_not_infix _ _ _ (by decide) h1,
    replaceAll_of_not_infix _ _ _ (by decide) h2,
    replaceAll_of_not_infix _ _ _ (by decide) h3,
    replaceAll_of_not_infix _ _ _ (by decide) h4,
    replaceAll_of_not_infix _ _ _ (by decide) h5]

/-- The cleaner maps the empty text to the empty text. -/
theorem preprocess_nil_eq : preprocess_for_sentiment [] = [] := by
  simp [preprocess_for_sentiment]

/-- Unfolding the cleaner at an allowed character: it is kept. -/
theorem preprocess_cons_pos (c : Char) (rest : List Char) (h : allowedChar c = true) :
    preprocess_for_sentiment (c :: rest) = c :: preprocess_for_sentiment rest := by
  rw [preprocess_for_sentiment]
  simp [h]

/-- Unfolding the cleaner at a disallowed character: the whole maximal
disallowed run is deleted. -/
theorem preprocess_cons_neg (c : Char) (rest : List Char) (h : ¬ allowedChar c = true) :
    preprocess_for_sentiment (c :: rest)
      = preprocess_for_sentiment (rest.dropWhile (fun d => !allowedChar d)) := by
  rw [preprocess_for_sentiment]
  simp [h]

/-- Dropping a maximal disallowed run does not change the retained
characters. -/
theorem filter_dropWhile_not (p : Char → Bool) :
    ∀ l : List Char, (l.dropWhile (fun d => !p d)).filter p = l.filter p := by
  intro l
  induction l with
  | nil => rfl
  | cons a l ih =>
    by_cases h : p a
    · rw [List.dropWhile_cons]
      simp [h]
    · rw [List.dropWhile_cons]
      simp only [h, Bool.not_false, if_true]
      rw [ih, List.filter_cons_of_neg (by simp [h])]

/-- Run-by-run deletion of disallowed characters (the `re.sub` with a
`+`-quantified negated class) equals the character filter. -/
theorem preprocess_eq_filter : ∀ t : List Char,
    preprocess_for_sentiment t = t.filter allowedChar := by
  have aux : ∀ (N : Nat) (t : List Char), t.length ≤ N →
      preprocess_for_sentiment t = t.filter allowedChar := by
    intro N
    induction N with
    | zero =>
      intro t ht
      have : t = [] := List.length_eq_zero.mp (Nat.le_zero.mp ht)
      subst this
      exact preprocess_nil_eq
    | succ N ih =>
      intro t ht
      cases t with
      | nil => exact preprocess_nil_eq
      | cons c rest =>
        have hrest : rest.length ≤ N := by
          simp only [List.length_cons] at ht; omega
        by_cases h : allowedChar c
        · rw [preprocess_cons_pos c rest h, List.filter_cons_of_pos h, ih rest hrest]
        · have hlen : (rest.dropWhile (fun d => !allowedChar d)).length ≤ N :=
            le_trans (List.Sublist.length_le (List.dropWhile_sublist _)) hrest
          rw [preprocess_cons_neg c rest h, ih _ hlen, filter_dropWhile_not,
            List.filter_cons_of_neg h]
  intro t
  exact aux t.length t le_rfl

/-- Every character of a filtered list satisfies the filter. -/
theorem filter_all_self (p : Char → Bool) : ∀ l : List Char, (l.filter p).all p = true := by
  intro l
  induction l with
  | nil => rfl
  | cons a l ih =>
    by_cases h : p a
    · rw [List.filter_cons_of_pos h]
      simp [h, ih]
    · rw [List.filter_cons_of_neg h]
      exact ih

/-- C4: the character-set cleaner returns exactly the subsequence of
characters in the class `[A-Za-z0-9, space, U+0623..U+064A]`, in their
original order; on the multilingual sample it deletes both exclamation
marks and keeps everything else. -/
theorem preprocess_for_sentiment_spec :
    (∀ t : List Char, preprocess_for_sentiment t = t.filter allowedChar)
      ∧ preprocess_for_sentiment "I love programming! أحب البرمجة!".data
          = "I love programming أحب البرمجة".data := by
  refine ⟨preprocess_eq_filter, ?_⟩
  rw [preprocess_eq_filter]
  decide

/-- C5: the cleaner is idempotent; the empty text maps to the empty text,
an all-allowed text is unchanged, and an all-disallowed text maps to the
empty text. -/
theorem preprocess_for_sentiment_idempotent (t : List Char) :
    preprocess_for_sentiment (preprocess_for_sentiment t) = preprocess_for_sentiment t
      ∧ preprocess_for_sentiment [] = []
      ∧ (t.all allowedChar = true → preprocess_for_sentiment t = t)
      ∧ (t.all (fun c => !allowedChar c) = true → preprocess_for_sentiment t = []) := by
  refine ⟨?_, preprocess_nil_eq, ?_, ?_⟩
  · rw [preprocess_eq_filter, preprocess_eq_filter, List.filter_filter]
    simp
  · intro h
    rw [preprocess_eq_filter]
    exact List.filter_eq_self.mpr (List.all_eq_true.mp h)
  · intro h
    rw [preprocess_eq_filter]
    refine List.filter_eq_nil_iff.mpr ?_
    intro a ha
    have := List.all_eq_true.mp h a ha
    simpa using this

/-- Witness for C5: the idempotence theorem applied at concrete inputs,
with each hypothesis discharged by evaluation. -/
theorem preprocess_for_sentiment_idempotent_witness :
    preprocess_for_sentiment "ab 1".data = "ab 1".data
      ∧ preprocess_for_sentiment "!?".data = [] :=
  ⟨(preprocess_for_sentiment_idempotent "ab 1".data).2.2.1 (by decide),
   (preprocess_for_sentiment_idempotent "!?".data).2.2.2 (by decide)⟩

/-- C6: the cleaner never increases string length. -/
theorem preprocess_for_sentiment_length_le (t : List Char) :
    (preprocess_for_sentiment t).length ≤ t.length := by
  rw [preprocess_eq_filter]
  exact List.length_filter_le _ _

/-- C9: the cleaner keeps only the literal class, so the Arabic letters
ء (U+0621) and آ (U+0622) and the Arabic-Indic digits ٠..٩
(U+0660..U+0669) are all deleted, even though they are Arabic letters and
decimal digits respectively. -/
theorem preprocess_for_sentiment_excludes :
    (∀ t : List Char, (preprocess_for_sentiment t).all allowedChar = true)
      ∧ preprocess_for_sentiment "ءآ".data = []
      ∧ preprocess_for_sentiment "٠١٢٣٤٥٦٧٨٩".data = []
      ∧ preprocess_for_sentiment "aءb".data = "ab".data
      ∧ 'ء'.toNat = 0x621 ∧ 'آ'.toNat = 0x622 ∧ 'أ'.toNat = 0x623 ∧ 'ي'.toNat = 0x64A := by
  refine ⟨?_, ?_, ?_, ?_, by decide, by decide, by decide, by decide⟩
  · intro t
    rw [preprocess_eq_filter]
    exact filter_all_self allowedChar t
  all_goals rw [preprocess_eq_filter] ; decide

/-- Closed form of the empty-pattern replacement: the replacement is laid
down before every character and once more after the last. -/
theorem gapInsert_eq_foldr (r : List Char) :
    ∀ t : List Char, gapInsert r t = r ++ t.foldr (fun c acc => c :: (r ++ acc)) [] := by
  intro t
  induction t with
  | nil => simp [gapInsert]
  | cons c rest ih =>
    simp only [gapInsert, List.foldr_cons, ih]

/-- Length of the empty-pattern replacement output. -/
theorem gapInsert_length (r : List Char) :
    ∀ t : List Char, (gapInsert r t).length = t.length + (t.length + 1) * r.length := by
  intro t
  induction t with
  | nil => simp [gapInsert]
  | cons c rest ih =>
    simp only [gapInsert, List.length_append, List.length_cons, ih]
    ring

/-- C8 counterexample: a mapping containing an empty key is not rejected
by the dialect normalizer; the call goes through and silently rewrites
the text, inserting the replacement at every character gap, exactly as
Python `str.replace` does with an empty pattern. -/
theorem empty_key_not_rejected :
    applyMapping [(([] : List Char), "X".data)] "ab".data = "XaXbX".data
      ∧ "XaXbX".data ≠ "ab".data := by
  refine ⟨?_, ?_⟩ <;> decide

/-- C8 amended: none of the utilities validates its arguments; with an
empty key the dialect normalizer silently mis-processes every text,
producing the gap-insertion output of Python `str.replace("", r)` — of
length `|t| + (|t| + 1) * |r|` — instead of signalling an invalid
argument. -/
theorem empty_key_silently_processed (t r : List Char) :
    applyMapping [(([] : List Char), r)] t
        = r ++ t.foldr (fun c acc => c :: (r ++ acc)) []
      ∧ (applyMapping [(([] : List Char), r)] t).length
        = t.length + (t.length + 1) * r.length := by
  have hgap : applyMapping [(([] : List Char), r)] t = gapInsert r t := rfl
  rw [hgap]
  exact ⟨gapInsert_eq_foldr r t, gapInsert_length r t⟩
